import Mathlib

/-!
# Verification of the polargraph-optimizer core (`process.py`)

A shallow embedding of the script `process.py` into Lean 4, together with
theorems settling the specification claims about it.

Modelling conventions:
* Python runtime errors that the script can raise (IndexError from list
  subscripting, ValueError from `int()` and from `range()` with a zero step,
  TypeError from subscripting `None`) are modelled with `Except PyErr`.
* Python 2 semantics are used throughout (the script uses integer division
  and Python 2 generator behaviour where an initial StopIteration inside a
  generator silently terminates it, so empty sums are `0`).
* Python string primitives used by the script (`str.rstrip`, `str.split(',')`,
  `int(...)`) are re-implemented structurally on `List Char` so that every
  definition is executable and kernel-reducible.
* The built-in string hash used by `Glyph.__hash__` is an arbitrary function
  `String → Int`: CPython computes a 64-bit seeded hash here, which is some
  fixed but unspecified non-injective function, so the embedding is
  parameterised by it.
-/

/-- The Python exceptions the modelled code can raise. -/
inductive PyErr where
  | indexError
  | valueError
  | typeError
deriving DecidableEq, Repr

/-- Whitespace characters stripped by Python `str.rstrip()`. -/
def pyIsSpace (c : Char) : Bool :=
  c = ' ' || c = '\t' || c = '\n' || c = '\r' || c = '\x0b' || c = '\x0c'

/-- Python `line.rstrip()`: remove trailing whitespace. -/
def pyRstrip (s : String) : String :=
  ⟨(s.data.reverse.dropWhile pyIsSpace).reverse⟩

/-- Split a character list at every comma, Python `str.split(',')` style:
the empty string yields `[[]]`, adjacent commas yield empty fields. -/
def splitCommaChars : List Char → List (List Char)
  | [] => [[]]
  | c :: rest =>
    if c = ',' then [] :: splitCommaChars rest
    else
      match splitCommaChars rest with
      | [] => [[c]]
      | f :: fs => (c :: f) :: fs

/-- Python `line.split(',')`. -/
def pySplitComma (s : String) : List String :=
  (splitCommaChars s.data).map (fun cs => ⟨cs⟩)

/-- Digits of a decimal literal, as a natural number (helper for `pyParseInt`). -/
def decDigits (cs : List Char) : Nat :=
  cs.foldl (fun acc c => acc * 10 + (c.toNat - 48)) 0

/-- Python `int(s)` restricted to what the plotter files contain: optional
surrounding whitespace, an optional sign, then one or more ASCII digits.
`none` models the ValueError raised on anything else. -/
def pyParseInt (s : String) : Option Int :=
  let t := (s.data.dropWhile pyIsSpace).reverse.dropWhile pyIsSpace |>.reverse
  match t with
  | [] => none
  | '-' :: ds => if ds ≠ [] ∧ ds.all Char.isDigit then some (-(decDigits ds : Int)) else none
  | '+' :: ds => if ds ≠ [] ∧ ds.all Char.isDigit then some ((decDigits ds : Int)) else none
  | ds => if ds.all Char.isDigit then some ((decDigits ds : Int)) else none

/-- One motion/state command, as built by `Instruction.__init__`. -/
structure Instruction where
  line : String
  parts : List String
  typecode : String
  typename : String
  coords : Option (Int × Int)
deriving DecidableEq, Repr

/-- The fixed typecode table `Instruction.types`, via `dict.get(..., 'other')`. -/
def typenameOf (typecode : String) : String :=
  if typecode = "C13" then "pendown"
  else if typecode = "C14" then "penup"
  else if typecode = "C17" then "move"
  else "other"

/-- `Instruction._coords`: `try: (int(parts[1]), int(parts[2])) except ValueError: None`.
Subscripting a missing field raises IndexError, which the `except` clause does
NOT catch; an unparseable field raises ValueError, which it does catch. -/
def coordsOfParts (parts : List String) : Except PyErr (Option (Int × Int)) :=
  match parts[1]? with
  | none => .error .indexError
  | some f1 =>
    match pyParseInt f1 with
    | none => .ok none
    | some x =>
      match parts[2]? with
      | none => .error .indexError
      | some f2 =>
        match pyParseInt f2 with
        | none => .ok none
        | some y => .ok (some (x, y))

/-- `Instruction.__init__(line)`. -/
def Instruction.ofLine (raw : String) : Except PyErr Instruction :=
  let line := pyRstrip raw
  let parts := pySplitComma line
  let typecode := parts.headD ""
  match coordsOfParts parts with
  | .error e => .error e
  | .ok c =>
    .ok { line := line, parts := parts, typecode := typecode,
          typename := typenameOf typecode, coords := c }

/-- `Instruction.distance_to(other)`: Chebyshev distance between the two
coordinate pairs; subscripting absent (`None`) coords raises TypeError. -/
def Instruction.distance_to (self other : Instruction) : Except PyErr Int :=
  match other.coords, self.coords with
  | some q, some p => .ok (max |q.1 - p.1| |q.2 - p.2|)
  | _, _ => .error .typeError

deriving instance DecidableEq for Except

/-- One drawable glyph, as built by `Glyph.__init__(instructions)`:
`start = instructions[0].coords`, `end = instructions[-2].coords`, both reset
to `None` when the IndexError from a too-short list is caught. -/
structure Glyph where
  instructions : List Instruction
  start : Option (Int × Int)
  «end» : Option (Int × Int)
deriving DecidableEq, Repr

/-- `Glyph.__init__`: `instructions[0]` raises IndexError on an empty list and
`instructions[-2]` raises IndexError on a list shorter than two, and the
handler then sets both `start` and `end` to `None`. -/
def Glyph.ofInstructions (insts : List Instruction) : Glyph :=
  if h : 2 ≤ insts.length then
    { instructions := insts
      start := (insts.get ⟨0, by omega⟩).coords
      «end» := (insts.get ⟨insts.length - 2, by omega⟩).coords }
  else
    { instructions := insts, start := none, «end» := none }

/-- `Glyph.distance_to(other)`: `max(abs(other.start[0] - self.end[0]),
abs(other.start[1] - self.end[1]))`; subscripting `None` raises TypeError. -/
def Glyph.distance_to (self other : Glyph) : Except PyErr Int :=
  match other.start, self.«end» with
  | some q, some p => .ok (max |q.1 - p.1| |q.2 - p.2|)
  | _, _ => .error .typeError

/-- A glyph whose `start` and `end` both resolved (§3 calls the others
malformed). -/
def GWF (g : Glyph) : Prop := g.start.isSome ∧ g.«end».isSome

instance (g : Glyph) : Decidable (GWF g) := by unfold GWF; infer_instance

/-- The content `Glyph.__hash__` hashes: `"\n".join(i.line for i in instructions)`. -/
def Glyph.fingerprint (g : Glyph) : String :=
  String.intercalate "\n" (g.instructions.map Instruction.line)

/-! ## Segmentation (the main loop over `instructions`) -/

/-- The segmentation loop of `main`: append each instruction to the current
chunk; on a pen-up, promote the chunk to a glyph when it holds more than one
instruction, and always start a fresh chunk; the trailing chunk is dropped. -/
def segmentAux (chunk : List Instruction) : List Instruction → List Glyph
  | [] => []
  | i :: rest =>
    let chunk' := chunk ++ [i]
    if i.typename = "penup" then
      if 1 < chunk'.length then Glyph.ofInstructions chunk' :: segmentAux [] rest
      else segmentAux [] rest
    else segmentAux chunk' rest

/-- The glyph list `main` builds from the parsed instruction list. -/
def segmentMain (insts : List Instruction) : List Glyph := segmentAux [] insts

/-- Modelled from the spec wording (§4.3): cut the instruction stream into
pen-up-terminated chunks (each chunk ends with its closing pen-up), returning
the chunks together with the unterminated trailing run. -/
def chunkify : List Instruction → List (List Instruction) × List Instruction
  | [] => ([], [])
  | i :: rest =>
    if i.typename = "penup" then
      ([i] :: (chunkify rest).1, (chunkify rest).2)
    else
      match chunkify rest with
      | ([], tr) => ([], i :: tr)
      | (c :: cs, tr) => ((i :: c) :: cs, tr)

/-- Modelled from the spec wording (§4.3): the glyphs are the pen-up-terminated
chunks of more than one instruction, in input order; lone pen-ups and the
trailing unterminated chunk never become glyphs. -/
def segmentSpec (insts : List Instruction) : List Glyph :=
  ((chunkify insts).1.filter (fun c => 1 < c.length)).map Glyph.ofInstructions

/-! ## Travel accounting -/

/-- Sum of `prev.distance_to g` over consecutive pairs, starting from `prev`. -/
def pairTravel : Glyph → List Glyph → Except PyErr Int
  | _, [] => .ok 0
  | prev, g :: rest => do
    let d ← prev.distance_to g
    let t ← pairTravel g rest
    pure (d + t)

/-- `total_penup_travel(gs)`: inter-glyph travel.  With Python 2 generator
semantics the empty ordering sums to `0`. -/
def total_penup_travel (gs : List Glyph) : Except PyErr Int :=
  match gs with
  | [] => .ok 0
  | g :: rest => pairTravel g rest

/-- Sum of `prev.distance_to m` over consecutive move instructions. -/
def moveTravel : Instruction → List Instruction → Except PyErr Int
  | _, [] => .ok 0
  | prev, m :: rest => do
    let d ← prev.distance_to m
    let t ← moveTravel m rest
    pure (d + t)

/-- `total_travel(gs)`: flatten every instruction of kind `move` in ordering
order, then sum consecutive distances; `0` with fewer than two moves. -/
def total_travel (gs : List Glyph) : Except PyErr Int :=
  match gs.flatMap (fun g => g.instructions.filter (fun i => i.typename = "move")) with
  | [] => .ok 0
  | m :: rest => moveTravel m rest

/-! ## Deduplication -/

/-- The loop of `dedupe(gs)`: membership of `pyhash` of the fingerprint in the
`seen` set decides duplication — the glyph contents are never compared. -/
def dedupeAux (pyhash : String → Int) (seen : List Int) : List Glyph → List Glyph
  | [] => []
  | g :: rest =>
    let h := pyhash g.fingerprint
    if h ∈ seen then dedupeAux pyhash seen rest
    else g :: dedupeAux pyhash (h :: seen) rest

/-- `dedupe(gs)`, parameterised by the CPython string hash. -/
def dedupe (pyhash : String → Int) (gs : List Glyph) : List Glyph :=
  dedupeAux pyhash [] gs

/-- Modelled from the spec wording (§4.4): collision-safe deduplication that
compares the full ordered raw-line contents, keeping first occurrences. -/
def dedupeByContentAux (seen : List String) : List Glyph → List Glyph
  | [] => []
  | g :: rest =>
    if g.fingerprint ∈ seen then dedupeByContentAux seen rest
    else g :: dedupeByContentAux (g.fingerprint :: seen) rest

/-- Modelled from the spec wording (§4.4): content-equality dedupe. -/
def dedupeByContent (gs : List Glyph) : List Glyph :=
  dedupeByContentAux [] gs

/-! ## Greedy router -/

/-- The scanning phase of Python `min(gs, key=f)`: keep the current best (and
its key), replace it only on a strictly smaller key, so the first minimiser
wins; the key function itself can raise. -/
def pyminAux (f : Glyph → Except PyErr Int) (best : Glyph) (bestKey : Int) :
    List Glyph → Except PyErr Glyph
  | [] => .ok best
  | g :: rest => do
    let k ← f g
    if k < bestKey then pyminAux f g k rest else pyminAux f best bestKey rest

/-- Python `min(gs, key=f)`: ValueError on an empty sequence, otherwise the
first element attaining the minimal key. -/
def pyminKey (f : Glyph → Except PyErr Int) : List Glyph → Except PyErr Glyph
  | [] => .error .valueError
  | g :: rest => do
    let k ← f g
    pyminAux f g k rest

/-- The `while len(gs) > 0` loop of `reorder_greedy`: pick
`min(gs, key=prev.distance_to)`, remove it (`list.remove` deletes the first
occurrence, and `Glyph` equality in Python is object identity, which the
first-minimiser position realises), append it, continue from it.  The fuel is
the pool length; the zero-fuel case with a non-empty pool is unreachable. -/
def greedyLoop : Nat → Glyph → List Glyph → Except PyErr (List Glyph)
  | _, _, [] => .ok []
  | 0, _, _ :: _ => .error .valueError
  | fuel + 1, prev, pool@(_ :: _) => do
    let nearest ← pyminKey (fun g => prev.distance_to g) pool
    let tail ← greedyLoop fuel nearest (pool.erase nearest)
    pure (nearest :: tail)

/-- `reorder_greedy(gs, index)`: copy the list, `pop(index)` (IndexError when
out of range) as the fixed first glyph, then the nearest-neighbour loop. -/
def reorder_greedy (gs : List Glyph) (index : Nat) : Except PyErr (List Glyph) :=
  match gs[index]? with
  | none => .error .indexError
  | some first => do
    let pool := gs.eraseIdx index
    let tail ← greedyLoop pool.length first pool
    pure (first :: tail)

/-! ## Sorted baseline, output stream, and the main pipeline -/

/-- Python 2 `<` on the `attrgetter('start')` keys: `None` is smaller than any
tuple, tuples compare lexicographically. -/
def py2LtStart (a b : Glyph) : Bool :=
  match a.start, b.start with
  | none, none => false
  | none, some _ => true
  | some _, none => false
  | some (x1, y1), some (x2, y2) => x1 < x2 || (x1 = x2 && y1 < y2)

/-- Stable insertion for `pySortByStart`: an element moves past another only
when strictly smaller, preserving the original order of equal keys just as
Python sort does. -/
def insertByStart (g : Glyph) : List Glyph → List Glyph
  | [] => [g]
  | x :: xs => if py2LtStart g x then g :: x :: xs else x :: insertByStart g xs

/-- `sorted(glyphs, key=attrgetter('start'))`: a stable sort by start point
(modelled as insertion sort, which produces the same ordering). -/
def pySortByStart : List Glyph → List Glyph
  | [] => []
  | g :: gs => insertByStart g (pySortByStart gs)

/-- `print_glyphs(gs)` as the list of stdout lines it produces: the pen-up
sentinel first, then every instruction line of every glyph in order. -/
def print_glyphs (gs : List Glyph) : List String :=
  "C14,END" :: gs.flatMap (fun g => g.instructions.map Instruction.line)

/-- The whole script as a function from the input lines to the stdout lines,
parameterised by the CPython string hash.  Diagnostics go to stderr and are
not part of the result, but computing them can raise, so they are evaluated
and discarded.  The probe loop `for i in range(0, len(glyphs), len(glyphs)/15)`
raises ValueError when the integer-division step is zero (fewer than 15
glyphs, including none at all); otherwise its first iteration prints the
greedy ordering and calls `sys.exit()`, so exactly one probe ever runs. -/
def pyMain (pyhash : String → Int) (inputLines : List String) :
    Except PyErr (List String) := do
  let instructions ← inputLines.mapM Instruction.ofLine
  let glyphs := segmentMain instructions
  let _ ← total_penup_travel glyphs
  let _ ← total_travel glyphs
  let glyphs := dedupe pyhash glyphs
  let _ ← total_penup_travel glyphs
  let _ ← total_travel glyphs
  let sorted_g := pySortByStart glyphs
  let _ ← total_penup_travel sorted_g
  let _ ← total_travel sorted_g
  if glyphs.length / 15 = 0 then
    .error .valueError
  else do
    let greedy ← reorder_greedy glyphs 0
    let _ ← total_penup_travel greedy
    let _ ← total_travel greedy
    pure (print_glyphs greedy)

/-! ## Object-level model of `reorder_greedy`

The value-level `reorder_greedy` above resolves the mutation in the source
during translation.  To state the frame property (the caller's list object is
not mutated) the function is also modelled over an explicit store of list
objects, where every mutating operation of the source (`list(gs)`, `pop`,
`remove`, `append`) acts on the object the source applies it to.  Glyph
objects themselves are plain values here: the source contains no assignment
to any glyph attribute. -/

/-- A store of Python list objects: ids below `fresh` are allocated. -/
structure Heap where
  lists : Nat → List Glyph
  fresh : Nat

/-- Read the list object with id `i`. -/
def Heap.read (h : Heap) (i : Nat) : List Glyph := h.lists i

/-- Overwrite the list object with id `i` (models an in-place mutation). -/
def Heap.write (h : Heap) (i : Nat) (v : List Glyph) : Heap :=
  { h with lists := fun j => if j = i then v else h.lists j }

/-- Allocate a fresh list object holding `v` and return its id. -/
def Heap.alloc (h : Heap) (v : List Glyph) : Heap × Nat :=
  ({ lists := fun j => if j = h.fresh then v else h.lists j, fresh := h.fresh + 1 },
   h.fresh)

/-- The `while` loop of `reorder_greedy` over the store: `gs.remove(nearest)`
mutates the pool object, `ordered.append(nearest)` mutates the result object;
nothing else is written. -/
def greedyLoopH : Nat → Heap → Glyph → Nat → Nat → Heap × Except PyErr Unit
  | 0, h, _, _, _ => (h, .ok ())
  | fuel + 1, h, prev, poolId, ordId =>
    match h.read poolId with
    | [] => (h, .ok ())
    | pool@(_ :: _) =>
      match pyminKey (fun g => prev.distance_to g) pool with
      | .error e => (h, .error e)
      | .ok nearest =>
        let h1 := h.write poolId (pool.erase nearest)
        let h2 := h1.write ordId (h1.read ordId ++ [nearest])
        greedyLoopH fuel h2 nearest poolId ordId

/-- `reorder_greedy(gs, index)` over the store: line `gs = list(gs)` allocates
a fresh copy and rebinds the local name to it, so `pop`, `remove` and the loop
all act on the copy; the result list is a second fresh object. -/
def reorder_greedyH (h : Heap) (gsId : Nat) (index : Nat) : Heap × Except PyErr Nat :=
  let h1 := (h.alloc (h.read gsId)).1
  let copyId := (h.alloc (h.read gsId)).2
  match (h1.read copyId)[index]? with
  | none => (h1, .error .indexError)
  | some first =>
    let h2 := h1.write copyId ((h1.read copyId).eraseIdx index)
    let h3 := (h2.alloc [first]).1
    let ordId := (h2.alloc [first]).2
    let res := greedyLoopH ((h3.read copyId).length) h3 first copyId ordId
    (res.1, res.2.map (fun _ => ordId))

/-! ## Spec-side characterisation of the greedy step -/

/-- The pure minimisation key of the greedy step:
`distance(current.end, candidate.start)` (junk `0` on malformed glyphs, which
the claims exclude). -/
def gkey (prev c : Glyph) : Int :=
  match c.start, prev.«end» with
  | some q, some p => max |q.1 - p.1| |q.2 - p.2|
  | _, _ => 0

/-- Modelled from the spec wording (§4.6): `m` is the first element of `l`
attaining the minimal key — everything before it is strictly worse, everything
after it no better. -/
def FirstMinKey (key : Glyph → Int) (l : List Glyph) (m : Glyph) : Prop :=
  ∃ pre post, l = pre ++ m :: post ∧
    (∀ x ∈ pre, key m < key x) ∧ (∀ x ∈ post, key m ≤ key x)

/-- Modelled from the spec wording (§4.6): the output is built by repeatedly
appending the first nearest unvisited glyph and moving to it. -/
inductive GreedyChain : Glyph → List Glyph → List Glyph → Prop
  | nil (prev : Glyph) : GreedyChain prev [] []
  | cons (prev : Glyph) (pool : List Glyph) (g : Glyph) (out : List Glyph)
      (hmin : FirstMinKey (gkey prev) pool g)
      (hrest : GreedyChain g (pool.erase g) out) :
      GreedyChain prev pool (g :: out)

/-- Pure form of Python `min` over a non-empty list: first minimiser. -/
def firstMinBy (key : Glyph → Int) : Glyph → List Glyph → Glyph
  | best, [] => best
  | best, g :: rest =>
    if key g < key best then firstMinBy key g rest else firstMinBy key best rest

/-! ## Concrete fixtures -/

/-- Fixture glyph `G1(start=(0,0), end=(0,0))` of §8. -/
def fixG1 : Glyph := ⟨[], some (0, 0), some (0, 0)⟩

/-- Fixture glyph `G2(start=(10,0), end=(10,0))` of §8. -/
def fixG2 : Glyph := ⟨[], some (10, 0), some (10, 0)⟩

/-- Fixture glyph `G3(start=(5,5), end=(5,5))` of §8. -/
def fixG3 : Glyph := ⟨[], some (5, 5), some (5, 5)⟩

/-- A pen-down instruction, as `Instruction.__init__` parses `"C13,0,0"`. -/
def iPD : Instruction := ⟨"C13,0,0", ["C13", "0", "0"], "C13", "pendown", some (0, 0)⟩

/-- A pen-up instruction, as `Instruction.__init__` parses `"C14,1,1"`. -/
def iPU : Instruction := ⟨"C14,1,1", ["C14", "1", "1"], "C14", "penup", some (1, 1)⟩

/-- A second pen-up instruction, parsed from `"C14,2,2"`. -/
def iPU2 : Instruction := ⟨"C14,2,2", ["C14", "2", "2"], "C14", "penup", some (2, 2)⟩

/-- A pen-down instruction with different content, parsed from `"C13,9,9"`. -/
def iPD2 : Instruction := ⟨"C13,9,9", ["C13", "9", "9"], "C13", "pendown", some (9, 9)⟩

/-- A two-instruction glyph with raw lines `C13,0,0` / `C14,1,1`. -/
def colA : Glyph := Glyph.ofInstructions [iPD, iPU]

/-- A two-instruction glyph with different raw lines `C13,9,9` / `C14,2,2`. -/
def colB : Glyph := Glyph.ofInstructions [iPD2, iPU2]

/-- Stands in for the seeded CPython string hash on a colliding pair of
contents: CPython hashes strings to one of finitely many (64-bit) values, so
two distinct joined raw-line contents with equal hash exist by pigeonhole;
this function realises such a collision on the fingerprints of `colA` and
`colB`. -/
def collideHash : String → Int := fun _ => 0

/-- The sentinel instruction, as `Instruction.__init__` parses `"C14,END"`:
its second field is not an integer, so `coords` is absent. -/
def iEND : Instruction := ⟨"C14,END", ["C14", "END"], "C14", "penup", none⟩

/-- Prepend an already-accumulated partial chunk onto the first chunk of a
chunk list (helper relating the accumulator of `segmentAux` to `chunkify`). -/
def prependFirst (chunk : List Instruction) : List (List Instruction) → List (List Instruction)
  | [] => []
  | c :: cs => (chunk ++ c) :: cs

/-- A concrete two-glyph store for the frame witness. -/
def demoHeap : Heap := ⟨fun _ => [fixG1, fixG2], 1⟩

/-! ## Theorems -/

/-- C9: for points with present integer coordinates, the instruction distance
is the Chebyshev norm `max(instr abs dx, abs dy)`, it is symmetric, and the distance
from a point to itself is `0`. -/
theorem instruction_distance_chebyshev (i j : Instruction) (p q : Int × Int)
    (hi : i.coords = some p) (hj : j.coords = some q) :
    i.distance_to j = .ok (max |p.1 - q.1| |p.2 - q.2|) ∧
    i.distance_to j = j.distance_to i ∧
    i.distance_to i = .ok 0 := by
  have e1 : i.distance_to j = .ok (max |q.1 - p.1| |q.2 - p.2|) := by
    unfold Instruction.distance_to; rw [hi, hj]
  have e2 : j.distance_to i = .ok (max |p.1 - q.1| |p.2 - q.2|) := by
    unfold Instruction.distance_to; rw [hi, hj]
  have e3 : i.distance_to i = .ok (max |p.1 - p.1| |p.2 - p.2|) := by
    unfold Instruction.distance_to; rw [hi]
  refine ⟨?_, ?_, ?_⟩
  · rw [e1, abs_sub_comm q.1 p.1, abs_sub_comm q.2 p.2]
  · rw [e1, e2, abs_sub_comm q.1 p.1, abs_sub_comm q.2 p.2]
  · rw [e3]; simp

/-- Witness for `instruction_distance_chebyshev` at the concrete instructions
`C13,0,0` and `C14,1,1`. -/
theorem instruction_distance_chebyshev_witness :
    iPD.distance_to iPU = .ok (max |(0 : Int) - 1| |(0 : Int) - 1|) ∧
    iPD.distance_to iPU = iPU.distance_to iPD ∧
    iPD.distance_to iPD = .ok 0 :=
  instruction_distance_chebyshev iPD iPU (0, 0) (1, 1) rfl rfl

/-- C7: whenever either of the two points involved is absent — the end of the
left glyph or the start of the right glyph, or either coordinate pair for the
instruction-level distance — the distance computation raises TypeError rather
than returning a number. -/
theorem distance_absent_coords_raises (g g' : Glyph) (i j : Instruction)
    (hg : g.«end» = none ∨ g'.start = none)
    (hij : i.coords = none ∨ j.coords = none) :
    g.distance_to g' = .error .typeError ∧
    i.distance_to j = .error .typeError := by
  constructor
  · unfold Glyph.distance_to
    rcases hg with h | h <;> rw [h]
    cases g'.start <;> rfl
  · unfold Instruction.distance_to
    rcases hij with h | h <;> rw [h]
    cases j.coords <;> rfl

/-- Witness for `distance_absent_coords_raises` at a glyph whose instruction
list is too short to resolve an end point, and at the coordinate-free
sentinel instruction. -/
theorem distance_absent_coords_raises_witness :
    (Glyph.ofInstructions [iPU]).distance_to colA = .error .typeError ∧
    iEND.distance_to iPD = .error .typeError :=
  distance_absent_coords_raises (Glyph.ofInstructions [iPU]) colA iEND iPD
    (by decide) (by decide)

/-- C5: on the three-glyph fixture of §8 the greedy reorder from index 0
yields `[G1, G3, G2]`; the inter-glyph travel of the original order is 15 and
of the greedy order 10, which is strictly less. -/
theorem greedy_concrete_scenario :
    reorder_greedy [fixG1, fixG2, fixG3] 0 = .ok [fixG1, fixG3, fixG2] ∧
    total_penup_travel [fixG1, fixG2, fixG3] = .ok 15 ∧
    total_penup_travel [fixG1, fixG3, fixG2] = .ok 10 ∧
    (10 : Int) < 15 := by decide

/-- C1 (code bug): `dedupe` tests only membership of the hash code of the
joined raw lines in the `seen` set, so on a hash collision it silently drops a
glyph whose full contents are distinct, unlike the collision-safe
content-comparing dedupe the spec demands, which keeps both glyphs. -/
theorem dedupe_by_hash_drops_distinct_glyph :
    colA.fingerprint ≠ colB.fingerprint ∧
    collideHash colA.fingerprint = collideHash colB.fingerprint ∧
    dedupe collideHash [colA, colB] = [colA] ∧
    dedupeByContent [colA, colB] = [colA, colB] := by decide

/-- When the string hash is injective on the fingerprints occurring in the
input, `dedupe` does agree with content-comparing deduplication (nearby truth
to C1: the code is only correct in the absence of collisions). -/
theorem dedupe_eq_dedupeByContent_of_injective (pyhash : String → Int)
    (gs : List Glyph)
    (hinj : ∀ a ∈ gs, ∀ b ∈ gs, pyhash a.fingerprint = pyhash b.fingerprint →
      a.fingerprint = b.fingerprint) :
    dedupe pyhash gs = dedupeByContent gs := by
  suffices h : ∀ (gs' : List Glyph), (∀ g ∈ gs', g ∈ gs) →
      ∀ (seen : List String), (∀ s ∈ seen, ∃ g ∈ gs, s = g.fingerprint) →
      dedupeAux pyhash (seen.map pyhash) gs' = dedupeByContentAux seen gs' by
    simpa using h gs (fun _ hg => hg) [] (by simp)
  intro gs'
  induction gs' with
  | nil => intro _ seen _; rfl
  | cons g rest ih =>
    intro hsub seen hseeninv
    have hg : g ∈ gs := hsub g (by simp)
    have hsub' : ∀ x ∈ rest, x ∈ gs := fun x hx => hsub x (by simp [hx])
    by_cases hseen : g.fingerprint ∈ seen
    · have hmem : pyhash g.fingerprint ∈ seen.map pyhash :=
        List.mem_map_of_mem pyhash hseen
      simp only [dedupeAux, dedupeByContentAux, if_pos hmem, if_pos hseen]
      exact ih hsub' seen hseeninv
    · have hmem : pyhash g.fingerprint ∉ seen.map pyhash := by
        intro hin
        obtain ⟨s, hs, hhash⟩ := List.mem_map.mp hin
        obtain ⟨g', hg', hs'⟩ := hseeninv s hs
        have : g.fingerprint = s := hs' ▸ hinj g hg g' hg' (hs' ▸ hhash.symm)
        exact hseen (this ▸ hs)
      simp only [dedupeAux, dedupeByContentAux, if_neg hmem, if_neg hseen]
      have : (g.fingerprint :: seen).map pyhash =
          pyhash g.fingerprint :: seen.map pyhash := rfl
      rw [← this]
      rw [ih hsub' (g.fingerprint :: seen) ?_]
      intro s hs
      rcases hs with _ | hs
      · exact ⟨g, hg, rfl⟩
      · exact hseeninv s (by assumption)

/-- Reduction of `Except` bind on a success value (definitional). -/
theorem except_ok_bind {α β : Type} (a : α) (f : α → Except PyErr β) :
    Except.ok a >>= f = f a := rfl

/-- C2 (code bug): on empty input the script reaches
`range(0, len(glyphs), len(glyphs) / 15)` with a zero step and raises
ValueError, emitting nothing at all on the command stream — it does not
complete and it does not print the `C14,END` sentinel. -/
theorem pyMain_empty_input_raises (pyhash : String → Int) :
    pyMain pyhash [] = .error .valueError := by
  simp [pyMain, List.mapM.loop, total_penup_travel, total_travel, segmentMain,
    segmentAux, dedupe, dedupeAux, pySortByStart, except_ok_bind]

/-- Witness for `pyMain_empty_input_raises` at a concrete hash function. -/
theorem pyMain_empty_input_raises_witness :
    pyMain collideHash [] = .error .valueError :=
  pyMain_empty_input_raises collideHash

/-- C8: for any chosen ordering the emitted command stream starts with the
literal `C14,END` line, followed by exactly the raw line of every instruction
of every glyph in ordering order; and the raw line an instruction re-emits is
its original input line trimmed of trailing whitespace. -/
theorem print_glyphs_stream (gs : List Glyph) (raw : String) (inst : Instruction)
    (h : Instruction.ofLine raw = .ok inst) :
    (print_glyphs gs).head? = some "C14,END" ∧
    (print_glyphs gs).tail =
      gs.flatMap (fun g => g.instructions.map Instruction.line) ∧
    inst.line = pyRstrip raw := by
  refine ⟨rfl, rfl, ?_⟩
  simp only [Instruction.ofLine] at h
  rcases hc : coordsOfParts (pySplitComma (pyRstrip raw)) with e | c <;> rw [hc] at h
  · cases h
  · cases h
    rfl

/-- Witness for `print_glyphs_stream` at a one-glyph ordering and the raw
line `"C17,1,2  "` (trailing blanks trimmed on re-emission). -/
theorem print_glyphs_stream_witness :
    (print_glyphs [colA]).head? = some "C14,END" ∧
    (print_glyphs [colA]).tail =
      [colA].flatMap (fun g => g.instructions.map Instruction.line) ∧
    (Instruction.mk "C17,1,2" ["C17", "1", "2"] "C17" "move" (some (1, 2))).line =
      pyRstrip "C17,1,2  " :=
  print_glyphs_stream [colA] "C17,1,2  "
    (Instruction.mk "C17,1,2" ["C17", "1", "2"] "C17" "move" (some (1, 2)))
    (by decide)

/-- C3 (counterexample): the parser is NOT total — a line whose field 1
parses as an integer but whose field 2 is missing raises IndexError, which
the `except ValueError` clause does not catch. -/
theorem ofLine_missing_field_raises :
    Instruction.ofLine "C17,5" = .error .indexError := by decide

/-- C3 (amended): with `parts` the comma-split of the rstripped line — when
there are at least three fields the parser returns without exception, with
`coords` present exactly when both fields parse as integers; with exactly two
fields it returns `coords = None` when field 1 is not an integer (the
ValueError is caught) but raises IndexError when field 1 parses; with a
single field it always raises IndexError. -/
theorem ofLine_amended (raw : String) :
    (∀ p0 p1 p2 rest, pySplitComma (pyRstrip raw) = p0 :: p1 :: p2 :: rest →
      Instruction.ofLine raw =
        .ok ⟨pyRstrip raw, p0 :: p1 :: p2 :: rest, p0, typenameOf p0,
             match pyParseInt p1, pyParseInt p2 with
             | some x, some y => some (x, y)
             | _, _ => none⟩) ∧
    (∀ p0 p1, pySplitComma (pyRstrip raw) = [p0, p1] → pyParseInt p1 = none →
      Instruction.ofLine raw =
        .ok ⟨pyRstrip raw, [p0, p1], p0, typenameOf p0, none⟩) ∧
    (∀ p0 p1 x, pySplitComma (pyRstrip raw) = [p0, p1] → pyParseInt p1 = some x →
      Instruction.ofLine raw = .error .indexError) ∧
    (∀ p0, pySplitComma (pyRstrip raw) = [p0] →
      Instruction.ofLine raw = .error .indexError) := by
  refine ⟨?_, ?_, ?_, ?_⟩
  · intro p0 p1 p2 rest hs
    simp only [Instruction.ofLine, coordsOfParts, hs, List.getElem?_cons_succ,
      List.getElem?_cons_zero, List.headD_cons]
    rcases h1 : pyParseInt p1 with _ | x <;> simp only [h1]
    rcases h2 : pyParseInt p2 with _ | y <;> simp only [h2]
  · intro p0 p1 hs h1
    simp only [Instruction.ofLine, coordsOfParts, hs, List.getElem?_cons_succ,
      List.getElem?_cons_zero, List.headD_cons, h1]
  · intro p0 p1 x hs h1
    simp only [Instruction.ofLine, coordsOfParts, hs, List.getElem?_cons_succ,
      List.getElem?_cons_zero, List.getElem?_nil, List.headD_cons, h1]
  · intro p0 hs
    simp only [Instruction.ofLine, coordsOfParts, hs, List.getElem?_cons_succ,
      List.getElem?_nil, List.headD_cons]

/-- Witness for `ofLine_amended`: the three-field line `"C13,3,4"` parses to a
pen-down instruction with coordinates `(3, 4)`. -/
theorem ofLine_amended_witness :
    Instruction.ofLine "C13,3,4" =
      .ok ⟨"C13,3,4", ["C13", "3", "4"], "C13", "pendown", some (3, 4)⟩ :=
  (ofLine_amended "C13,3,4").1 "C13" "3" "4" [] (by decide)

theorem prependFirst_nil : ∀ cs, prependFirst [] cs = cs
  | [] => rfl
  | _ :: _ => by simp [prependFirst]

/-- The segmentation loop with an arbitrary accumulated chunk produces the
pen-up-terminated chunks (with the accumulator spliced onto the first one) of
more than one instruction, in order, as glyphs. -/
theorem segmentAux_chunkify (l : List Instruction) : ∀ chunk,
    segmentAux chunk l =
      ((prependFirst chunk (chunkify l).1).filter (fun c => 1 < c.length)).map
        Glyph.ofInstructions := by
  induction l with
  | nil => intro chunk; rfl
  | cons i rest ih =>
    intro chunk
    by_cases hp : i.typename = "penup"
    · simp only [segmentAux, hp, if_pos, chunkify]
      rw [ih [], prependFirst_nil]
      simp only [prependFirst, List.filter_cons]
      by_cases h0 : 0 < chunk.length <;> simp [h0]
    · simp only [segmentAux, hp, if_neg, chunkify]
      rw [ih (chunk ++ [i])]
      rcases hcr : chunkify rest with ⟨cs, tr⟩
      cases cs with
      | nil => simp [prependFirst]
      | cons c cs' => simp [prependFirst, List.append_assoc]

/-- C6: segmenting emits, in input order, one glyph per pen-up-terminated
chunk of more than one instruction; lone pen-up chunks and the trailing
unterminated chunk are discarded.  In particular the input
`[pen-down, pen-up, pen-up]` yields exactly one glyph covering the first two
instructions. -/
theorem segmentMain_spec :
    (∀ insts, segmentMain insts = segmentSpec insts) ∧
    segmentMain [iPD, iPU, iPU2] = [Glyph.ofInstructions [iPD, iPU]] := by
  constructor
  · intro insts
    unfold segmentMain segmentSpec
    rw [segmentAux_chunkify insts [], prependFirst_nil]
  · decide

/-- On well-formed glyphs the fallible distance returns the pure key. -/
theorem distance_to_eq_gkey {prev g : Glyph} (hp : GWF prev) (hg : GWF g) :
    prev.distance_to g = .ok (gkey prev g) := by
  obtain ⟨_, hpe⟩ := hp
  obtain ⟨hgs, _⟩ := hg
  rcases he : prev.«end» with _ | p
  · rw [he] at hpe; simp at hpe
  · rcases hs : g.start with _ | q
    · rw [hs] at hgs; simp at hgs
    · unfold Glyph.distance_to gkey
      rw [he, hs]

/-- The scan of Python `min` computes the first minimiser, given that the key
function succeeds on every scanned element. -/
theorem pyminAux_firstMinBy (f : Glyph → Except PyErr Int) (key : Glyph → Int) :
    ∀ (l : List Glyph) (best : Glyph), (∀ g ∈ l, f g = .ok (key g)) →
      pyminAux f best (key best) l = .ok (firstMinBy key best l) := by
  intro l
  induction l with
  | nil => intro best _; rfl
  | cons g rest ih =>
    intro best hl
    have hg : f g = .ok (key g) := hl g (by simp)
    simp only [pyminAux, firstMinBy, hg, except_ok_bind]
    by_cases hlt : key g < key best
    · simp only [if_pos hlt]
      exact ih g (fun x hx => hl x (by simp [hx]))
    · simp only [if_neg hlt]
      exact ih best (fun x hx => hl x (by simp [hx]))

/-- Python `min(gs, key=f)` on a non-empty list returns the first minimiser. -/
theorem pyminKey_firstMinBy (f : Glyph → Except PyErr Int) (key : Glyph → Int)
    (b : Glyph) (l : List Glyph) (hb : f b = .ok (key b))
    (hl : ∀ g ∈ l, f g = .ok (key g)) :
    pyminKey f (b :: l) = .ok (firstMinBy key b l) := by
  simp only [pyminKey, hb, except_ok_bind]
  exact pyminAux_firstMinBy f key l b hl

/-- A first minimiser of a list is no worse than its head. -/
theorem FirstMinKey.le_head {key : Glyph → Int} {x : Glyph} {l : List Glyph}
    {m : Glyph} (h : FirstMinKey key (x :: l) m) : key m ≤ key x := by
  obtain ⟨pre, post, heq, hpre, _⟩ := h
  cases pre with
  | nil =>
    injection heq with h1 _
    exact le_of_eq (congrArg key h1.symm)
  | cons p pre' =>
    injection heq with h1 _
    exact le_of_lt (h1 ▸ hpre p (by simp))

/-- A first minimiser is a member of the list. -/
theorem FirstMinKey.mem {key : Glyph → Int} {l : List Glyph} {m : Glyph}
    (h : FirstMinKey key l m) : m ∈ l := by
  obtain ⟨pre, post, heq, _, _⟩ := h
  rw [heq]; simp

/-- `firstMinBy key b l` is the first minimiser of `b :: l`. -/
theorem firstMinBy_firstMin (key : Glyph → Int) :
    ∀ (l : List Glyph) (b : Glyph), FirstMinKey key (b :: l) (firstMinBy key b l) := by
  intro l
  induction l with
  | nil => intro b; exact ⟨[], [], rfl, by simp, by simp⟩
  | cons g rest ih =>
    intro b
    by_cases hlt : key g < key b
    · simp only [firstMinBy, if_pos hlt]
      obtain ⟨pre, post, heq, hpre, hpost⟩ := ih g
      have hle : key (firstMinBy key g rest) ≤ key g := (ih g).le_head
      refine ⟨b :: pre, post, ?_, ?_, hpost⟩
      · rw [List.cons_append, ← heq]
      · intro x hx
        rcases List.mem_cons.mp hx with hxb | hxpre
        · rw [hxb]; exact lt_of_le_of_lt hle hlt
        · exact hpre x hxpre
    · simp only [firstMinBy, if_neg hlt]
      obtain ⟨pre, post, heq, hpre, hpost⟩ := ih b
      cases pre with
      | nil =>
        injection heq with h1 h2
        refine ⟨[], g :: post, ?_, by simp, ?_⟩
        · rw [List.nil_append, ← h1, h2]
        · intro x hx
          rcases List.mem_cons.mp hx with hxg | hxpost
          · rw [hxg, ← h1]; exact not_lt.mp hlt
          · exact hpost x hxpost
      | cons p pre' =>
        injection heq with h1 h2
        rw [List.append_eq] at h2
        have hltb : key (firstMinBy key b rest) < key b := h1 ▸ hpre p (by simp)
        refine ⟨b :: g :: pre', post, ?_, ?_, hpost⟩
        · rw [List.cons_append, List.cons_append, ← h2]
        · intro x hx
          rcases List.mem_cons.mp hx with hxb | hx'
          · rw [hxb]; exact hltb
          rcases List.mem_cons.mp hx' with hxg | hxpre'
          · rw [hxg]; exact lt_of_lt_of_le hltb (not_lt.mp hlt)
          · exact hpre x (by simp [hxpre'])

/-- The greedy loop with enough fuel succeeds on well-formed glyphs and its
output is a permutation of the pool built by the first-nearest chain. -/
theorem greedyLoop_spec : ∀ (fuel : Nat) (pool : List Glyph) (prev : Glyph),
    pool.length ≤ fuel → GWF prev → (∀ g ∈ pool, GWF g) →
    ∃ out, greedyLoop fuel prev pool = .ok out ∧ out.Perm pool ∧
      GreedyChain prev pool out := by
  intro fuel
  induction fuel with
  | zero =>
    intro pool prev hlen _ _
    have hnil : pool = [] := List.eq_nil_of_length_eq_zero (Nat.le_zero.mp hlen)
    subst hnil
    exact ⟨[], rfl, List.Perm.refl [], GreedyChain.nil prev⟩
  | succ fuel ih =>
    intro pool prev hlen hprev hpool
    cases pool with
    | nil => exact ⟨[], rfl, List.Perm.refl [], GreedyChain.nil prev⟩
    | cons b l =>
      have hkeyb : prev.distance_to b = .ok (gkey prev b) :=
        distance_to_eq_gkey hprev (hpool b (by simp))
      have hkeyl : ∀ g ∈ l, prev.distance_to g = .ok (gkey prev g) :=
        fun g hg => distance_to_eq_gkey hprev (hpool g (by simp [hg]))
      have hmin : pyminKey (fun g => prev.distance_to g) (b :: l) =
          .ok (firstMinBy (gkey prev) b l) :=
        pyminKey_firstMinBy _ (gkey prev) b l hkeyb hkeyl
      have hfirst : FirstMinKey (gkey prev) (b :: l) (firstMinBy (gkey prev) b l) :=
        firstMinBy_firstMin (gkey prev) l b
      have hmem : firstMinBy (gkey prev) b l ∈ b :: l := hfirst.mem
      have hlen' : ((b :: l).erase (firstMinBy (gkey prev) b l)).length ≤ fuel := by
        rw [List.length_erase_of_mem hmem]
        simp only [List.length_cons] at hlen ⊢
        omega
      have hGWFm : GWF (firstMinBy (gkey prev) b l) := hpool _ hmem
      have hsub : ∀ g ∈ (b :: l).erase (firstMinBy (gkey prev) b l), GWF g :=
        fun g hg => hpool g (List.mem_of_mem_erase hg)
      obtain ⟨out, hout, hperm, hchain⟩ :=
        ih ((b :: l).erase (firstMinBy (gkey prev) b l)) (firstMinBy (gkey prev) b l)
          hlen' hGWFm hsub
      refine ⟨firstMinBy (gkey prev) b l :: out, ?_, ?_, ?_⟩
      · simp only [greedyLoop, hmin, except_ok_bind, hout]
        rfl
      · exact (hperm.cons _).trans (List.perm_cons_erase hmem).symm
      · exact GreedyChain.cons prev (b :: l) _ out hfirst hchain

/-- Removing the element at a valid index and re-consing it in front is a
permutation of the original list. -/
theorem perm_cons_eraseIdx {α : Type} : ∀ (l : List α) (i : Nat) (h : i < l.length),
    l.Perm (l.get ⟨i, h⟩ :: l.eraseIdx i) := by
  intro l
  induction l with
  | nil => intro i h; simp at h
  | cons a t ih =>
    intro i h
    cases i with
    | zero => exact List.Perm.refl _
    | succ n =>
      have hn : n < t.length := by simpa using h
      show (a :: t).Perm (t.get ⟨n, hn⟩ :: a :: t.eraseIdx n)
      exact ((ih n hn).cons a).trans (List.Perm.swap _ _ _)

/-- C4: for a valid start index and well-formed glyphs, `reorder_greedy`
succeeds, returns the glyph at `start_index` first, its output is a
permutation of the input (same length, same multiset), and the rest of the
output is the first-nearest greedy chain over the remaining pool. -/
theorem reorder_greedy_spec (gs : List Glyph) (index : Nat)
    (hidx : index < gs.length) (hwf : ∀ g ∈ gs, GWF g) :
    ∃ tail, reorder_greedy gs index = .ok (gs.get ⟨index, hidx⟩ :: tail) ∧
      (gs.get ⟨index, hidx⟩ :: tail).Perm gs ∧
      (gs.get ⟨index, hidx⟩ :: tail).length = gs.length ∧
      GreedyChain (gs.get ⟨index, hidx⟩) (gs.eraseIdx index) tail := by
  have hget : gs[index]? = some (gs.get ⟨index, hidx⟩) := by
    rw [List.getElem?_eq_getElem hidx]; rfl
  have hWFfirst : GWF (gs.get ⟨index, hidx⟩) := hwf _ (List.get_mem gs index hidx)
  have hsub : ∀ g ∈ gs.eraseIdx index, GWF g := fun g hg =>
    hwf g ((List.eraseIdx_sublist gs index).subset hg)
  obtain ⟨out, hout, hperm, hchain⟩ :=
    greedyLoop_spec (gs.eraseIdx index).length (gs.eraseIdx index)
      (gs.get ⟨index, hidx⟩) le_rfl hWFfirst hsub
  have hperm' : (gs.get ⟨index, hidx⟩ :: out).Perm gs :=
    (hperm.cons _).trans (perm_cons_eraseIdx gs index hidx).symm
  refine ⟨out, ?_, hperm', hperm'.length_eq, hchain⟩
  simp only [reorder_greedy, hget, hout, except_ok_bind]
  rfl

/-- Witness for `reorder_greedy_spec` at the three-glyph fixture of §8. -/
theorem reorder_greedy_spec_witness :
    ∃ tail, reorder_greedy [fixG1, fixG2, fixG3] 0 = .ok (fixG1 :: tail) ∧
      (fixG1 :: tail).Perm [fixG1, fixG2, fixG3] ∧
      (fixG1 :: tail).length = 3 ∧
      GreedyChain fixG1 ([fixG1, fixG2, fixG3].eraseIdx 0) tail :=
  reorder_greedy_spec [fixG1, fixG2, fixG3] 0 (by decide) (by decide)

/-! ## Frame lemmas for the object-level model -/

/-- Reduction of `Except` bind on an error value (definitional). -/
theorem except_error_bind {α β : Type} (e : PyErr) (f : α → Except PyErr β) :
    (Except.error e : Except PyErr α) >>= f = .error e := rfl

theorem Heap.read_write_self (h : Heap) (i : Nat) (v : List Glyph) :
    (h.write i v).read i = v := by simp [Heap.read, Heap.write]

theorem Heap.read_write_ne (h : Heap) (i j : Nat) (v : List Glyph) (hne : j ≠ i) :
    (h.write i v).read j = h.read j := by simp [Heap.read, Heap.write, hne]

theorem Heap.read_alloc_self (h : Heap) (v : List Glyph) :
    ((h.alloc v).1).read h.fresh = v := by simp [Heap.read, Heap.alloc]

theorem Heap.read_alloc_ne (h : Heap) (v : List Glyph) (j : Nat) (hne : j ≠ h.fresh) :
    ((h.alloc v).1).read j = h.read j := by simp [Heap.read, Heap.alloc, hne]

theorem Heap.alloc_snd (h : Heap) (v : List Glyph) : (h.alloc v).2 = h.fresh := rfl

theorem Heap.write_fresh (h : Heap) (i : Nat) (v : List Glyph) :
    (h.write i v).fresh = h.fresh := rfl

theorem Heap.alloc_fresh (h : Heap) (v : List Glyph) :
    ((h.alloc v).1).fresh = h.fresh + 1 := rfl

/-- The element Python `min` scans to is the initial best or a list element. -/
theorem pyminAux_mem (f : Glyph → Except PyErr Int) :
    ∀ (l : List Glyph) (best : Glyph) (bk : Int) (m : Glyph),
      pyminAux f best bk l = .ok m → m = best ∨ m ∈ l := by
  intro l
  induction l with
  | nil =>
    intro best bk m h
    injection h with h1
    exact Or.inl h1.symm
  | cons g rest ih =>
    intro best bk m h
    simp only [pyminAux] at h
    rcases hf : f g with e | k <;> rw [hf] at h
    · rw [except_error_bind] at h; cases h
    · rw [except_ok_bind] at h
      by_cases hlt : k < bk
      · rw [if_pos hlt] at h
        rcases ih g k m h with h1 | h1
        · exact Or.inr (by simp [h1])
        · exact Or.inr (by simp [h1])
      · rw [if_neg hlt] at h
        rcases ih best bk m h with h1 | h1
        · exact Or.inl h1
        · exact Or.inr (by simp [h1])

/-- Python `min` returns a member of the list. -/
theorem pyminKey_mem (f : Glyph → Except PyErr Int) (l : List Glyph) (m : Glyph)
    (h : pyminKey f l = .ok m) : m ∈ l := by
  cases l with
  | nil => cases h
  | cons g rest =>
    simp only [pyminKey] at h
    rcases hf : f g with e | k <;> rw [hf] at h
    · rw [except_error_bind] at h; cases h
    · rw [except_ok_bind] at h
      rcases pyminAux_mem f rest g k m h with h1 | h1
      · simp [h1]
      · simp [h1]

/-- The greedy loop writes only the pool object and the result object: every
other list object in the store is untouched. -/
theorem greedyLoopH_read_other :
    ∀ (fuel : Nat) (h : Heap) (prev : Glyph) (poolId ordId j : Nat),
      j ≠ poolId → j ≠ ordId →
      ((greedyLoopH fuel h prev poolId ordId).1).read j = h.read j := by
  intro fuel
  induction fuel with
  | zero => intro h prev p o j _ _; rfl
  | succ fuel ih =>
    intro h prev p o j hjp hjo
    rcases hp : h.read p with _ | ⟨b, l⟩
    · simp only [greedyLoopH, hp]
    · rcases hmin : pyminKey (fun g => prev.distance_to g) (b :: l) with e | nearest <;>
        simp only [greedyLoopH, hp, hmin]
      rw [ih _ nearest p o j hjp hjo,
        Heap.read_write_ne _ _ _ _ hjo, Heap.read_write_ne _ _ _ _ hjp]

/-- Every glyph the greedy loop ever puts into the result object comes from
the initial pool or the initial result contents. -/
theorem greedyLoopH_ord_mem :
    ∀ (fuel : Nat) (h : Heap) (prev : Glyph) (poolId ordId : Nat) (S : List Glyph),
      poolId ≠ ordId →
      (∀ g ∈ h.read poolId, g ∈ S) → (∀ g ∈ h.read ordId, g ∈ S) →
      ∀ g ∈ ((greedyLoopH fuel h prev poolId ordId).1).read ordId, g ∈ S := by
  intro fuel
  induction fuel with
  | zero => intro h prev p o S _ _ hoS; exact hoS
  | succ fuel ih =>
    intro h prev p o S hpo hpS hoS
    rcases hp : h.read p with _ | ⟨b, l⟩
    · simp only [greedyLoopH, hp]; exact hoS
    · rcases hmin : pyminKey (fun g => prev.distance_to g) (b :: l) with e | nearest <;>
        simp only [greedyLoopH, hp, hmin]
      · exact hoS
      · have hnear : nearest ∈ S := by
          apply hpS
          rw [hp]
          exact pyminKey_mem _ _ _ hmin
        apply ih _ nearest p o S hpo
        · intro g hg
          rw [Heap.read_write_ne _ _ _ _ hpo, Heap.read_write_self] at hg
          exact hpS g (by rw [hp]; exact List.mem_of_mem_erase hg)
        · intro g hg
          rw [Heap.read_write_self] at hg
          rcases List.mem_append.mp hg with h1 | h1
          · rw [Heap.read_write_ne _ _ _ _ (Ne.symm hpo)] at h1
            exact hoS g h1
          · have : g = nearest := by simpa using h1
            rw [this]
            exact hnear

/-- Inversion of `Except.map` on a success result. -/
theorem except_map_ok_inv {α β : Type} {x : Except PyErr α} {f : α → β} {b : β}
    (h : x.map f = .ok b) : ∃ a, x = .ok a ∧ b = f a := by
  cases x with
  | error e => simp [Except.map] at h
  | ok a => exact ⟨a, rfl, by simpa [Except.map] using h.symm⟩

/-- C10: `reorder_greedy` over the store of list objects mutates only the two
lists it allocates itself (the copy made by `list(gs)` and the result).  The
object passed by the caller — and every other pre-existing list object — reads
back unchanged, and every glyph value in the result list is one of the glyph
values of the caller's list. -/
theorem reorder_greedy_frame (h : Heap) (gsId index : Nat) (hid : gsId < h.fresh) :
    ((reorder_greedyH h gsId index).1).read gsId = h.read gsId ∧
    (∀ j, j < h.fresh → ((reorder_greedyH h gsId index).1).read j = h.read j) ∧
    (∀ ordId, (reorder_greedyH h gsId index).2 = .ok ordId →
      ∀ g ∈ ((reorder_greedyH h gsId index).1).read ordId, g ∈ h.read gsId) := by
  have hcopy : ((h.alloc (h.read gsId)).1).read h.fresh = h.read gsId :=
    Heap.read_alloc_self h _
  have main : (∀ j, j < h.fresh → ((reorder_greedyH h gsId index).1).read j = h.read j) ∧
      (∀ ordId, (reorder_greedyH h gsId index).2 = .ok ordId →
        ∀ g ∈ ((reorder_greedyH h gsId index).1).read ordId, g ∈ h.read gsId) := by
    rcases hix : (h.read gsId)[index]? with _ | first
    · have hred : reorder_greedyH h gsId index =
          ((h.alloc (h.read gsId)).1, .error .indexError) := by
        simp only [reorder_greedyH, Heap.alloc_snd, hcopy, hix]
      rw [hred]
      constructor
      · intro j hj
        exact Heap.read_alloc_ne h _ _ (Nat.ne_of_lt hj)
      · intro ordId hok
        simp at hok
    · set h2 := ((h.alloc (h.read gsId)).1).write h.fresh
        ((h.read gsId).eraseIdx index) with hh2
      set h3 := (h2.alloc [first]).1 with hh3
      set res := greedyLoopH ((h3.read h.fresh).length) h3 first h.fresh (h.fresh + 1)
        with hres
      have h2fresh : h2.fresh = h.fresh + 1 := by
        rw [hh2]; simp only [Heap.write_fresh, Heap.alloc_fresh]
      have hred : reorder_greedyH h gsId index =
          (res.1, res.2.map (fun _ => h.fresh + 1)) := by
        rw [hres, hh3, hh2]
        simp only [reorder_greedyH, Heap.alloc_snd, Heap.write_fresh, Heap.alloc_fresh,
          hcopy, hix]
      rw [hred]
      have hfirstmem : first ∈ h.read gsId := by
        obtain ⟨hlt, hEq⟩ := List.getElem?_eq_some.mp hix
        exact hEq ▸ List.getElem_mem hlt
      have hpool : ∀ g ∈ h3.read h.fresh, g ∈ h.read gsId := by
        intro g hg
        rw [hh3, Heap.read_alloc_ne _ _ _ (by rw [h2fresh]; omega)] at hg
        rw [hh2, Heap.read_write_self] at hg
        exact (List.eraseIdx_sublist _ index).subset hg
      have hord : ∀ g ∈ h3.read (h.fresh + 1), g ∈ h.read gsId := by
        intro g hg
        have hread : h3.read (h.fresh + 1) = [first] := by
          rw [hh3, ← h2fresh]
          exact Heap.read_alloc_self h2 [first]
        rw [hread] at hg
        have hgf : g = first := by simpa using hg
        rw [hgf]
        exact hfirstmem
      constructor
      · intro j hj
        show (res.1).read j = h.read j
        rw [hres, greedyLoopH_read_other _ _ _ _ _ j (Nat.ne_of_lt hj) (by omega)]
        rw [hh3, Heap.read_alloc_ne _ _ _ (by rw [h2fresh]; omega)]
        rw [hh2, Heap.read_write_ne _ _ _ _ (Nat.ne_of_lt hj)]
        exact Heap.read_alloc_ne h _ _ (Nat.ne_of_lt hj)
      · intro ordId hok
        have hok' : (res.2).map (fun _ => h.fresh + 1) = .ok ordId := hok
        obtain ⟨u, _, hord'⟩ := except_map_ok_inv hok'
        intro g hg
        have hg' : g ∈ ((greedyLoopH ((h3.read h.fresh).length) h3 first h.fresh
            (h.fresh + 1)).1).read (h.fresh + 1) := by
          rw [← hres]
          have hOrd : ordId = h.fresh + 1 := hord'
          rw [← hOrd]
          exact hg
        exact greedyLoopH_ord_mem _ h3 first h.fresh (h.fresh + 1) (h.read gsId)
          (by omega) hpool hord g hg'
  exact ⟨main.1 gsId hid, main.1, main.2⟩

/-- Witness for `reorder_greedy_frame`: running the store-level
`reorder_greedy` on the only allocated list leaves it unchanged. -/
theorem reorder_greedy_frame_witness :
    ((reorder_greedyH demoHeap 0 0).1).read 0 = demoHeap.read 0 :=
  (reorder_greedy_frame demoHeap 0 0 (by decide)).1

